import Mathlib

set_option maxHeartbeats 1000000
set_option maxRecDepth 10000

/-!
Shallow embedding of the `actionkv` log-structured key-value store
(`src/src/lib.rs`), verified against its specification.

Modelling conventions:
* a byte is a `Nat` (on-disk bytes are < 256); the backing file is a `List Nat`;
* `u32` arithmetic is `Nat` with an explicit `% 2^32` wherever the Rust code
  wraps (release semantics; the `debug_assert_eq!` in `process_record` is
  compiled out in release builds and is not modelled);
* the OS-level file handle offset is modelled by the `pos` field of the store.
  Reads through `BufReader` leave the underlying handle at the end of the
  read-ahead fill: for a record that fits inside the first 8192-byte fill the
  handle ends at `min (start + 8192) file.length`, which is what `get_at`
  records.  `load` re-seeks the handle at every loop iteration
  (`SeekFrom::Current(0)` on a `BufReader` rewinds the read-ahead), so inside
  `load` positions are exact; when its scan stops at a truncated or empty
  header the read-ahead has consumed the remaining tail, leaving the handle at
  end of file;
* `panic!` on a checksum mismatch and the `Vec::split_off` panic are modelled
  as distinguished error values, since they abort the running operation;
* the file is opened with `append(true)`, so every flushed write lands at the
  end of the file and leaves the handle there.
-/

/-- Byte sequence, the model of the `ByteString` / `ByteStr` aliases. -/
abbrev ByteSeq := List Nat

/-- Modulus of 32-bit unsigned arithmetic, `2 ^ 32`. -/
def U32M : Nat := 4294967296

/-- Generator polynomial of CRC-32/CKSUM (`crc::CRC_32_CKSUM`, `0x04C11DB7`). -/
def crcPoly : Nat := 0x04C11DB7

/-- One MSB-first shift-register step of CRC-32/CKSUM on a 32-bit state. -/
def crcStep (c : Nat) : Nat :=
  if c.testBit 31 then ((2 * c) % U32M) ^^^ crcPoly else (2 * c) % U32M

/-- Absorb one byte into the CRC state: xor it into the top byte of the
state, then run eight shift-register steps. -/
def crcByte (c b : Nat) : Nat :=
  crcStep (crcStep (crcStep (crcStep (crcStep (crcStep (crcStep (crcStep
    (c ^^^ (b <<< 24)))))))))

/-- CRC-32/CKSUM of a byte sequence: init `0`, no reflection, xor-out
`0xFFFFFFFF`.  This is the function `CRC32.checksum` of the source computes. -/
def crc32 (l : ByteSeq) : Nat := (l.foldl crcByte 0) ^^^ 0xFFFFFFFF

/-- Little-endian 4-byte encoding of a `u32`; taking a `Nat` argument, it
encodes `n % 2^32`, which is exactly the effect of the `as u32` casts at the
`write_u32::<LittleEndian>` call sites. -/
def u32LE (n : Nat) : ByteSeq :=
  [n % 256, n / 256 % 256, n / 65536 % 256, n / 16777216 % 256]

/-- Model of `read_u32::<LittleEndian>`: consume four bytes, or fail
(`ErrorKind::UnexpectedEof` from `read_exact`) when fewer remain. -/
def readU32 : ByteSeq → Option (Nat × ByteSeq)
  | b0 :: b1 :: b2 :: b3 :: rest =>
    some (b0 + 256 * b1 + 65536 * b2 + 16777216 * b3, rest)
  | _ => none

/-- Model of the `KeyValuePair` struct. -/
structure KeyValuePair where
  key : ByteSeq
  value : ByteSeq
  deriving DecidableEq

/-- Abnormal outcomes of `process_record`:
* `unexpectedEof` — `read_u32` hit end of input inside the 12 header bytes
  (`io::ErrorKind::UnexpectedEof`);
* `corruption` — the recomputed checksum differs from the stored one; in the
  source this is a `panic!("data corruption encountered …")`;
* `splitPanic` — `data.split_off(key_len)` with `key_len > data.len()`, a
  `Vec::split_off` panic (only possible after a short payload read whose
  checksum nevertheless matched). -/
inductive PErr where
  | unexpectedEof : PErr
  | corruption : PErr
  | splitPanic : PErr
  deriving DecidableEq

/-- Model of `ActionKV::process_record`.  The input is the remainder of the
file from the current read position.  On success it returns the decoded pair
together with the number of bytes consumed (12 header bytes plus the payload
actually read).  `take(data_len).read_to_end(&mut data)` reads *up to*
`data_len` bytes and does not fail at end of input, hence the `List.take`. -/
def process_record (input : ByteSeq) : Except PErr (KeyValuePair × Nat) :=
  match readU32 input with
  | none => .error .unexpectedEof
  | some (savedChecksum, r1) =>
    match readU32 r1 with
    | none => .error .unexpectedEof
    | some (keyLen, r2) =>
      match readU32 r2 with
      | none => .error .unexpectedEof
      | some (valLen, r3) =>
        let dataLen := (keyLen + valLen) % U32M
        let data := r3.take dataLen
        if crc32 data = savedChecksum then
          if keyLen ≤ data.length then
            .ok (⟨data.take keyLen, data.drop keyLen⟩, 12 + data.length)
          else
            .error .splitPanic
        else
          .error .corruption

/-- Encoded on-disk form of one record, as written by
`insert_but_ignore_index`: checksum, key length, value length (all `u32`
little-endian, the lengths going through an `as u32` cast), then the payload
`key ++ value` verbatim. -/
def encodeRecord (key value : ByteSeq) : ByteSeq :=
  let tmp := key ++ value
  u32LE (crc32 tmp) ++ u32LE key.length ++ u32LE value.length ++ tmp

/-- Model of the `ActionKV` struct: the backing file's bytes, the OS file
handle offset (implicit in the `File` value in Rust), and the in-memory
index.  The index models `HashMap<ByteString, u64>` as an association list
whose key-to-offset contents are what the claims compare. -/
structure ActionKV where
  file : ByteSeq
  pos : Nat
  index : List (ByteSeq × Nat)
  deriving DecidableEq

/-- Lookup in the index, the model of `self.index.get(key)`. -/
def idxFind (m : List (ByteSeq × Nat)) (k : ByteSeq) : Option Nat :=
  match m with
  | [] => none
  | (k', v) :: rest => if k' = k then some v else idxFind rest k

/-- Overwriting insertion, the model of `HashMap::insert`: any previous
binding of the key is replaced. -/
def idxInsert (m : List (ByteSeq × Nat)) (k : ByteSeq) (v : Nat) :
    List (ByteSeq × Nat) :=
  (k, v) :: m.filter (fun p => p.1 ≠ k)

/-- Model of `ActionKV::open`: the file is opened (its prior contents are
whatever is on disk), the handle is at offset 0, and the index is empty.
Named `openStore` because `open` is a Lean keyword. -/
def ActionKV.openStore (f : ByteSeq) : ActionKV := ⟨f, 0, []⟩

/-- Default capacity of `std::io::BufReader`, whose read-ahead moves the
underlying handle past the bytes logically consumed by `get_at`. -/
def bufReaderCap : Nat := 8192

/-- Model of `ActionKV::insert_but_ignore_index`.  Faithful to the source's
ordering: `current_position` is taken from `seek(SeekFrom::Current(0))`
*before* the seek to `SeekFrom::End(0)`, so the returned value is the handle
position at entry, not the offset the record is written at.  The write itself
lands at end of file (`append(true)`), leaving the handle at the new end. -/
def ActionKV.insert_but_ignore_index (s : ActionKV) (key value : ByteSeq) :
    Nat × ActionKV :=
  let currentPosition := s.pos
  let f' := s.file ++ encodeRecord key value
  (currentPosition, { s with file := f', pos := f'.length })

/-- Model of `ActionKV::insert`: append the record, then store the returned
position in the index. -/
def ActionKV.insert (s : ActionKV) (key value : ByteSeq) : ActionKV :=
  let r := s.insert_but_ignore_index key value
  { r.2 with index := idxInsert r.2.index key r.1 }

/-- Model of `ActionKV::update`, which just delegates to `insert`. -/
def ActionKV.update (s : ActionKV) (key value : ByteSeq) : ActionKV :=
  s.insert key value

/-- Model of `ActionKV::delete`, which is `insert(key, b"")`. -/
def ActionKV.delete (s : ActionKV) (key : ByteSeq) : ActionKV :=
  s.insert key []

/-- Model of `ActionKV::get_at`: seek to `p`, decode one record through a
fresh `BufReader`.  The read-ahead fill leaves the underlying handle at
`min (p + 8192) file.length` (single-fill case; see the header comment). -/
def ActionKV.get_at (s : ActionKV) (p : Nat) :
    Except PErr (KeyValuePair × ActionKV) :=
  match process_record (s.file.drop p) with
  | .error e => .error e
  | .ok (kv, _) =>
    .ok (kv, { s with pos := min (p + bufReaderCap) s.file.length })

/-- Model of `ActionKV::get`: index lookup; on a miss return `none` with no
file access at all; on a hit read the record at the stored offset and return
its value bytes. -/
def ActionKV.get (s : ActionKV) (key : ByteSeq) :
    Except PErr (Option ByteSeq × ActionKV) :=
  match idxFind s.index key with
  | none => .ok (none, s)
  | some p =>
    match s.get_at p with
    | .error e => .error e
    | .ok (kv, s') => .ok (some kv.value, s')

/-- Value-only view of `get`, discarding the resulting store. -/
def ActionKV.getValue (s : ActionKV) (key : ByteSeq) :
    Except PErr (Option ByteSeq) :=
  (s.get key).map Prod.fst

/-- Loop of `ActionKV::load`, with a fuel argument to make the recursion
structural (the fuel passed by `load` strictly dominates the iteration count,
since every successful `process_record` consumes at least 12 bytes; the
fuel-0 arm is unreachable and mirrors the stop arm).  An `UnexpectedEof`
from the header reads breaks the loop; any other failure aborts it.  When the
loop stops, the failed header read has pulled the remaining tail into the
read-ahead buffer, leaving the handle at end of file, hence `pos +
rest.length`. -/
def scanLoad : Nat → ByteSeq → Nat → List (ByteSeq × Nat) →
    Except PErr (List (ByteSeq × Nat) × Nat)
  | 0, rest, pos, idx => .ok (idx, pos + rest.length)
  | fuel + 1, rest, pos, idx =>
    match process_record rest with
    | .error .unexpectedEof => .ok (idx, pos + rest.length)
    | .error e => .error e
    | .ok (kv, consumed) =>
      scanLoad fuel (rest.drop consumed) (pos + consumed)
        (idxInsert idx kv.key pos)

/-- Model of `ActionKV::load`.  Faithful to the source: the scan starts from
the handle's *current* position (the loop's first
`seek(SeekFrom::Current(0))`), and the pre-existing index is *not* cleared —
each decoded record merely overwrites its own key's entry. -/
def ActionKV.load (s : ActionKV) : Except PErr ActionKV :=
  let rest := s.file.drop s.pos
  match scanLoad (rest.length + 1) rest s.pos s.index with
  | .error e => .error e
  | .ok (idx, p) => .ok { s with index := idx, pos := p }

/-- Record scan used to state what a log contains: the `(offset, record)`
pairs readable in sequence from a given position, stopping at the first
decode failure of any kind. -/
def scanRecords : Nat → ByteSeq → Nat → List (Nat × KeyValuePair)
  | 0, _, _ => []
  | fuel + 1, rest, pos =>
    match process_record rest with
    | .error _ => []
    | .ok (kv, consumed) =>
      (pos, kv) :: scanRecords fuel (rest.drop consumed) (pos + consumed)

/-- Records of the whole log, scanned from offset 0. -/
def logRecords (f : ByteSeq) : List (Nat × KeyValuePair) :=
  scanRecords (f.length + 1) f 0

/-- Offset of the most recent record carrying key `k` in a scanned record
list: the last matching entry. -/
def lastOffset (rs : List (Nat × KeyValuePair)) (k : ByteSeq) : Option Nat :=
  idxFind (rs.reverse.map (fun r => (r.2.key, r.1))) k

/-- First-defined-wins choice on optional offsets, used to state lookup
facts about association lists. -/
def oElse (a b : Option Nat) : Option Nat :=
  match a with
  | some x => some x
  | none => b

/-- Byte `i` of `l` with bit `j` flipped. -/
def flipBit (l : ByteSeq) (i j : Nat) : ByteSeq :=
  l.set i ((l.getD i 0) ^^^ (1 <<< j))

/-- Store states reachable through the public API: opening a path (with
whatever bytes are on disk), and successful `load`, `insert`, `update`,
`delete` and `get` calls. -/
inductive Reachable : ActionKV → Prop where
  | openStore (f : ByteSeq) : Reachable (ActionKV.openStore f)
  | load {s t : ActionKV} : Reachable s → s.load = .ok t → Reachable t
  | insert {s : ActionKV} (k v : ByteSeq) : Reachable s →
      Reachable (s.insert k v)
  | update {s : ActionKV} (k v : ByteSeq) : Reachable s →
      Reachable (s.update k v)
  | delete {s : ActionKV} (k : ByteSeq) : Reachable s →
      Reachable (s.delete k)
  | get {s t : ActionKV} {k : ByteSeq} {v : Option ByteSeq} : Reachable s →
      s.get k = .ok (v, t) → Reachable t

/-- Value of the second record in the offset-bug scenario: 9000 zero bytes,
making the log larger than one `BufReader` fill. -/
def bigValue : ByteSeq := List.replicate 9000 0

/-- Log produced by `insert("a","1"); insert("b", bigValue)` from an empty
file: a 14-byte record at offset 0 and a 9013-byte record at offset 14,
9027 bytes in all. -/
def fileBig : ByteSeq := encodeRecord [97] [49] ++ encodeRecord [98] bigValue

/-- Store holding `fileBig` with both keys indexed and the handle at end of
file — the state after the two inserts (or after open + load). -/
def sBig : ActionKV := ⟨fileBig, 9027, [([98], 14), ([97], 0)]⟩

/-- Store after `get("a")` on `sBig`: the value comes back fine, but the
`BufReader` fill has left the OS handle at offset 8192, in the middle of the
second record's payload — not at end of file. -/
def sAfterGet : ActionKV := ⟨fileBig, 8192, [([98], 14), ([97], 0)]⟩

/-- Store after `insert("c","z")` on `sAfterGet`: the record itself is
appended at the true end of file, 9027, but the offset stored in the index
is 8192 — the handle position captured before the seek to end of file. -/
def sBug : ActionKV :=
  ⟨fileBig ++ encodeRecord [99] [122], 9041,
    [([99], 8192), ([98], 14), ([97], 0)]⟩

/-- Concatenation of encoded records — the spec's "valid file": any
concatenation of zero or more records. -/
def encodeLog : List KeyValuePair → ByteSeq
  | [] => []
  | r :: rs => encodeRecord r.key r.value ++ encodeLog rs

/-- Index produced by replaying a record list in order from a starting
offset: each record sets its key to its offset, overwriting prior entries,
and the offset advances by the record's encoded size. -/
def replayIdx : List KeyValuePair → Nat → List (ByteSeq × Nat) →
    List (ByteSeq × Nat)
  | [], _, idx => idx
  | r :: rs, pos, idx =>
    replayIdx rs (pos + (encodeRecord r.key r.value).length)
      (idxInsert idx r.key pos)

instance {ε α : Type _} [DecidableEq ε] [DecidableEq α] :
    DecidableEq (Except ε α) := fun x y =>
  match x, y with
  | .error a, .error b => decidable_of_iff (a = b) (by simp)
  | .error _, .ok _ => .isFalse (by simp)
  | .ok _, .error _ => .isFalse (by simp)
  | .ok a, .ok b => decidable_of_iff (a = b) (by simp)

example : crc32 [49, 50, 51, 52, 53, 54, 55, 56, 57] = 0x765E7680 := by decide

example : (encodeRecord [97] [49]).length = 14 := by decide

example :
    process_record (encodeRecord [97] [49] ++ [7, 7]) =
      .ok (⟨[97], [49]⟩, 14) := by decide

/-! Basic bounds and codec lemmas. -/

theorem U32M_eq : U32M = 2 ^ 32 := by norm_num [U32M]

theorem crcStep_lt (c : Nat) : crcStep c < U32M := by
  unfold crcStep
  have hm : (2 * c) % U32M < U32M := Nat.mod_lt _ (by norm_num [U32M])
  split
  · rw [U32M_eq] at hm ⊢
    exact Nat.xor_lt_two_pow hm (by norm_num [crcPoly])
  · exact hm

theorem crcByte_lt (c b : Nat) : crcByte c b < U32M := crcStep_lt _

theorem crcFold_lt (l : ByteSeq) (c : Nat) (hc : c < U32M) :
    l.foldl crcByte c < U32M := by
  induction l generalizing c with
  | nil => exact hc
  | cons b t ih => exact ih _ (crcByte_lt _ _)

theorem crc32_lt (l : ByteSeq) : crc32 l < U32M := by
  unfold crc32
  rw [U32M_eq]
  exact Nat.xor_lt_two_pow (U32M_eq ▸ crcFold_lt l 0 (by norm_num [U32M]))
    (by norm_num)

theorem readU32_u32LE (n : Nat) (r : ByteSeq) :
    readU32 (u32LE n ++ r) = some (n % U32M, r) := by
  simp only [u32LE, List.cons_append, List.nil_append, readU32, U32M]
  refine congrArg some (Prod.ext ?_ rfl)
  simp only
  omega

theorem encodeRecord_length (key value : ByteSeq) :
    (encodeRecord key value).length = 12 + (key.length + value.length) := by
  simp [encodeRecord, u32LE]
  omega

theorem readU32_none {l : ByteSeq} (h : l.length < 4) : readU32 l = none := by
  match l with
  | [] => rfl
  | [_] => rfl
  | [_, _] => rfl
  | [_, _, _] => rfl
  | _ :: _ :: _ :: _ :: _ => simp [List.length_cons] at h; omega

theorem readU32_some_length {l : ByteSeq} {x : Nat} {r : ByteSeq}
    (h : readU32 l = some (x, r)) : l.length = r.length + 4 := by
  match l with
  | [] => simp [readU32] at h
  | [_] => simp [readU32] at h
  | [_, _] => simp [readU32] at h
  | [_, _, _] => simp [readU32] at h
  | a :: b :: c :: d :: t =>
    simp only [readU32, Option.some.injEq, Prod.mk.injEq] at h
    obtain ⟨-, rfl⟩ := h
    simp [List.length_cons]

/-- Unfolded form of `process_record` on an input whose 12 header bytes are
explicit. -/
theorem process_record_parts (c a b : Nat) (r : ByteSeq) :
    process_record (u32LE c ++ (u32LE a ++ (u32LE b ++ r))) =
      (let dataLen := (a % U32M + b % U32M) % U32M
       let data := r.take dataLen
       if crc32 data = c % U32M then
         if a % U32M ≤ data.length then
           .ok (⟨data.take (a % U32M), data.drop (a % U32M)⟩, 12 + data.length)
         else .error .splitPanic
       else .error .corruption) := by
  simp only [process_record, readU32_u32LE]

/-- Decoding at the start of a well-formed record (whose real lengths fit in
`u32`) succeeds and consumes exactly the record, whatever follows it. -/
theorem process_record_encode (key value rest : ByteSeq)
    (h : key.length + value.length < U32M) :
    process_record (encodeRecord key value ++ rest) =
      .ok (⟨key, value⟩, 12 + (key.length + value.length)) := by
  have hk : key.length % U32M = key.length := Nat.mod_eq_of_lt (by omega)
  have hv : value.length % U32M = value.length := Nat.mod_eq_of_lt (by omega)
  have hc : crc32 (key ++ value) % U32M = crc32 (key ++ value) :=
    Nat.mod_eq_of_lt (crc32_lt _)
  have hlen : (key ++ value).length = key.length + value.length :=
    List.length_append _ _
  simp only [encodeRecord, List.append_assoc]
  rw [process_record_parts]
  simp only [hk, hv, hc, Nat.mod_eq_of_lt h]
  rw [← List.append_assoc key value rest]
  rw [List.take_left' hlen]
  rw [if_pos rfl, if_pos (by omega)]
  rw [List.take_left, List.drop_left, hlen]

/-- Fewer than 12 bytes of input make some header read hit end of input. -/
theorem process_record_short {input : ByteSeq} (h : input.length < 12) :
    process_record input = .error .unexpectedEof := by
  unfold process_record
  cases h1 : readU32 input with
  | none => rfl
  | some p =>
    obtain ⟨x, r1⟩ := p
    have e1 := readU32_some_length h1
    dsimp only
    cases h2 : readU32 r1 with
    | none => rfl
    | some q =>
      obtain ⟨y, r2⟩ := q
      have e2 := readU32_some_length h2
      dsimp only
      rw [readU32_none (l := r2) (by omega)]

/-- Successful decoding consumes at least the 12 header bytes and at most the
whole input. -/
theorem process_record_ok_bounds {input : ByteSeq} {kv : KeyValuePair}
    {n : Nat} (h : process_record input = .ok (kv, n)) :
    12 ≤ n ∧ n ≤ input.length := by
  unfold process_record at h
  cases h1 : readU32 input with
  | none => rw [h1] at h; exact absurd h (by simp)
  | some p =>
    obtain ⟨x, r1⟩ := p
    rw [h1] at h
    dsimp only at h
    have e1 := readU32_some_length h1
    cases h2 : readU32 r1 with
    | none => rw [h2] at h; exact absurd h (by simp)
    | some q =>
      obtain ⟨y, r2⟩ := q
      rw [h2] at h
      dsimp only at h
      have e2 := readU32_some_length h2
      cases h3 : readU32 r2 with
      | none => rw [h3] at h; exact absurd h (by simp)
      | some w =>
        obtain ⟨z, r3⟩ := w
        rw [h3] at h
        dsimp only at h
        have e3 := readU32_some_length h3
        split at h
        · split at h
          · simp only [Except.ok.injEq, Prod.mk.injEq] at h
            obtain ⟨-, hn⟩ := h
            rw [List.length_take] at hn
            omega
          · exact absurd h (by simp)
        · exact absurd h (by simp)

/-! Lemmas about the `load` scan. -/

theorem process_record_nil : process_record [] = .error .unexpectedEof := rfl

theorem scanLoad_ok_pos {fuel : Nat} :
    ∀ {rest : ByteSeq} {pos : Nat} {idx idx' : List (ByteSeq × Nat)} {p' : Nat},
      scanLoad fuel rest pos idx = .ok (idx', p') → p' = pos + rest.length := by
  induction fuel with
  | zero =>
    intro rest pos idx idx' p' h
    simp only [scanLoad, Except.ok.injEq, Prod.mk.injEq] at h
    exact h.2.symm
  | succ n ih =>
    intro rest pos idx idx' p' h
    rw [scanLoad] at h
    cases hp : process_record rest with
    | error e =>
      cases e <;> rw [hp] at h <;> simp only [Except.ok.injEq, Except.error.injEq,
        Prod.mk.injEq, reduceCtorEq] at h
      exact h.2.symm
    | ok pr =>
      obtain ⟨kv, consumed⟩ := pr
      rw [hp] at h
      have hb := process_record_ok_bounds hp
      have h' := ih h
      rw [List.length_drop] at h'
      omega

theorem scanLoad_nil (fuel pos : Nat) (idx : List (ByteSeq × Nat)) :
    scanLoad fuel [] pos idx = .ok (idx, pos) := by
  cases fuel with
  | zero => simp [scanLoad]
  | succ n => rw [scanLoad, process_record_nil]; rfl

/-- Components of a successful `load`: the file is untouched and the final
handle position is past everything that was scanned. -/
theorem load_ok_parts {s t : ActionKV} (h : s.load = .ok t) :
    t.file = s.file ∧ t.pos = s.pos + (s.file.drop s.pos).length ∧
      scanLoad ((s.file.drop s.pos).length + 1) (s.file.drop s.pos) s.pos
        s.index = .ok (t.index, t.pos) := by
  unfold ActionKV.load at h
  dsimp only at h
  cases hs : scanLoad ((s.file.drop s.pos).length + 1) (s.file.drop s.pos)
      s.pos s.index with
  | error e => rw [hs] at h; exact absurd h (by simp)
  | ok r =>
    obtain ⟨idx, p⟩ := r
    rw [hs] at h
    simp only [Except.ok.injEq] at h
    subst h
    exact ⟨rfl, scanLoad_ok_pos hs, rfl⟩

/-! Index lemmas and the get-after-insert helper. -/

theorem idxFind_idxInsert_self (m : List (ByteSeq × Nat)) (k : ByteSeq)
    (v : Nat) : idxFind (idxInsert m k v) k = some v := by
  simp [idxInsert, idxFind]

/-- When `insert` is called with the file handle at end of file, the indexed
offset is the true start of the new record, so reading the key back returns
exactly the value just written. -/
theorem get_last_inserted (s : ActionKV) (key value : ByteSeq)
    (hpos : s.pos = s.file.length)
    (h : key.length + value.length < U32M) :
    (s.insert key value).getValue key = .ok (some value) := by
  unfold ActionKV.getValue ActionKV.get ActionKV.get_at ActionKV.insert
    ActionKV.insert_but_ignore_index
  dsimp only
  rw [idxFind_idxInsert_self, hpos]
  dsimp only
  rw [List.drop_left, ← List.append_nil (encodeRecord key value),
    process_record_encode key value [] h]
  rfl

/-- C7: `insert(K, V)` followed by `delete(K)` leaves `get(K)` returning the
empty-value result `some []`, not the absent result `none`.  The tombstone is
an ordinary empty-value record; `get` finds its offset in the index and reads
back an empty value.  (`key.length < U32M` keeps the `as u32` length cast
lossless, as the on-disk format requires.) -/
theorem c7_delete_then_get_returns_empty (s : ActionKV) (key value : ByteSeq)
    (hk : key.length < U32M) :
    ((s.insert key value).delete key).getValue key = .ok (some []) := by
  unfold ActionKV.delete
  apply get_last_inserted
  · simp [ActionKV.insert, ActionKV.insert_but_ignore_index]
  · simpa using hk

/-- Witness for C7 at a concrete store, key and value. -/
theorem c7_witness :
    ([107] : ByteSeq).length < U32M ∧
      (((ActionKV.openStore []).insert [107] [5]).delete [107]).getValue [107]
        = .ok (some []) :=
  ⟨by decide, c7_delete_then_get_returns_empty _ [107] [5] (by decide)⟩

/-- C8: `load` is idempotent.  In fact a second `load` returns the very same
store: the first `load` leaves the handle at end of file, so the second scan
reads nothing and changes nothing — in particular the key-to-offset contents
of the index are identical. -/
theorem c8_load_idempotent (s t : ActionKV) (h : s.load = .ok t) :
    t.load = .ok t := by
  obtain ⟨hf, hp, -⟩ := load_ok_parts h
  have hdrop : t.file.drop t.pos = [] := by
    apply List.drop_eq_nil_of_le
    rw [hf, hp, List.length_drop]
    omega
  unfold ActionKV.load
  dsimp only
  rw [hdrop, scanLoad_nil]

/-- Witness for C8: a concrete one-record file, loaded twice. -/
theorem c8_witness :
    (ActionKV.openStore (encodeRecord [97] [49])).load =
        .ok ⟨encodeRecord [97] [49], 14, [([97], 0)]⟩ ∧
      (ActionKV.mk (encodeRecord [97] [49]) 14 [([97], 0)]).load =
        .ok ⟨encodeRecord [97] [49], 14, [([97], 0)]⟩ :=
  ⟨by decide,
    c8_load_idempotent (ActionKV.openStore (encodeRecord [97] [49]))
      (ActionKV.mk (encodeRecord [97] [49]) 14 [([97], 0)]) (by decide)⟩

/-- C10: `get` never changes the index or the file contents — a successful
`get` returns a store with the same file and index (only the handle position
moves) — and when the key is absent from the index it returns `none` with the
store fully unchanged, performing no file access at all. -/
theorem c10_get_is_read_only (s : ActionKV) (key : ByteSeq) :
    (∀ v t, s.get key = .ok (v, t) → t.file = s.file ∧ t.index = s.index) ∧
      (idxFind s.index key = none → s.get key = .ok (none, s)) := by
  constructor
  · intro v t h
    unfold ActionKV.get at h
    cases hf : idxFind s.index key with
    | none =>
      rw [hf] at h
      simp only [Except.ok.injEq, Prod.mk.injEq] at h
      rw [← h.2]
      exact ⟨rfl, rfl⟩
    | some p =>
      rw [hf] at h
      dsimp only at h
      unfold ActionKV.get_at at h
      cases hp : process_record (s.file.drop p) with
      | error e => rw [hp] at h; exact absurd h (by simp)
      | ok kvn =>
        obtain ⟨kv, n⟩ := kvn
        rw [hp] at h
        simp only [Except.ok.injEq, Prod.mk.injEq] at h
        rw [← h.2]
        exact ⟨rfl, rfl⟩
  · intro h
    unfold ActionKV.get
    rw [h]

/-- Witness for C10: a `get` of an unindexed key on a concrete store. -/
theorem c10_witness :
    idxFind (ActionKV.openStore []).index [1] = none ∧
      (ActionKV.openStore []).get [1] = .ok (none, ActionKV.openStore []) :=
  ⟨rfl, (c10_get_is_read_only (ActionKV.openStore []) [1]).2 rfl⟩

/-- C6 counterexample: a log consisting of one valid record followed by a
2-byte truncated header.  `load` does *not* abort with an error — the
`UnexpectedEof` from the partial header read is caught by the same arm that
handles clean end of input, so the load stops cleanly and succeeds. -/
theorem c6_counterexample :
    (ActionKV.openStore (encodeRecord [97] [49] ++ [171, 205])).load =
      .ok ⟨encodeRecord [97] [49] ++ [171, 205], 16, [([97], 0)]⟩ := by
  decide

/-- Whenever at least four bytes remain, `read_u32` succeeds. -/
theorem readU32_long {l : ByteSeq} (h : 4 ≤ l.length) :
    ∃ x r, readU32 l = some (x, r) := by
  match l with
  | [] => simp at h
  | [_] => simp at h
  | [_, _] => simp at h
  | [_, _, _] => simp at h
  | a :: b :: c :: d :: t => exact ⟨_, t, rfl⟩

/-- Converse of `process_record_short`: the `UnexpectedEof` outcome — the
only one `load` treats as end of log, and the only I/O-error-shaped one —
arises exclusively when fewer than 12 header bytes remain.  In particular a
record truncated inside its payload (header complete, payload short) never
produces it: the payload read returns short without erroring and the result
comes from the checksum comparison instead. -/
theorem process_record_eof_short {input : ByteSeq}
    (h : process_record input = .error .unexpectedEof) : input.length < 12 := by
  by_contra hlen
  push_neg at hlen
  obtain ⟨x, r1, h1⟩ := readU32_long (l := input) (by omega)
  have e1 := readU32_some_length h1
  obtain ⟨y, r2, h2⟩ := readU32_long (l := r1) (by omega)
  have e2 := readU32_some_length h2
  obtain ⟨z, r3, h3⟩ := readU32_long (l := r2) (by omega)
  unfold process_record at h
  rw [h1] at h
  dsimp only at h
  rw [h2] at h
  dsimp only at h
  rw [h3] at h
  dsimp only at h
  split at h
  · split at h
    · exact absurd h (by simp)
    · exact absurd h (by simp)
  · exact absurd h (by simp)

/-- Scanning a concatenation of records followed by a sub-header-size tail
consumes every complete record, replays each into the index, and then stops
cleanly on the tail. -/
theorem scanLoad_encodeLog :
    ∀ (rs : List KeyValuePair) (tail : ByteSeq) (pos : Nat)
      (idx : List (ByteSeq × Nat)) (fuel : Nat),
      (∀ r ∈ rs, r.key.length + r.value.length < U32M) →
      tail.length < 12 → (encodeLog rs ++ tail).length < fuel →
      scanLoad fuel (encodeLog rs ++ tail) pos idx =
        .ok (replayIdx rs pos idx, pos + (encodeLog rs ++ tail).length) := by
  intro rs
  induction rs with
  | nil =>
    intro tail pos idx fuel hb ht hf
    simp only [encodeLog, List.nil_append] at hf ⊢
    obtain ⟨m, rfl⟩ : ∃ m, fuel = m + 1 := ⟨fuel - 1, by omega⟩
    rw [scanLoad, process_record_short ht]
    rfl
  | cons r rs ih =>
    intro tail pos idx fuel hb ht hf
    have hbr : r.key.length + r.value.length < U32M := hb r (by simp)
    rw [show encodeLog (r :: rs) = encodeRecord r.key r.value ++ encodeLog rs
      from rfl, List.append_assoc] at hf ⊢
    obtain ⟨m, rfl⟩ : ∃ m, fuel = m + 1 := ⟨fuel - 1, by omega⟩
    rw [scanLoad, process_record_encode _ _ _ hbr]
    dsimp only
    rw [← encodeRecord_length r.key r.value, List.drop_left]
    rw [ih tail (pos + (encodeRecord r.key r.value).length)
      (idxInsert idx r.key pos) m (fun x hx => hb x (by simp [hx])) ht
      (by rw [List.length_append, encodeRecord_length] at hf; omega)]
    simp only [replayIdx, List.length_append, Nat.add_assoc]

/-- C6 amended: (1) end of input anywhere inside the 12 record-header bytes
— a clean record boundary (empty tail) or a truncated trailing header — is
treated as normal end of log: for every log that is a concatenation of
records followed by such a tail, `load` stops cleanly and succeeds, with
the index replayed from exactly the complete records and the handle at end
of file.  (2) The `UnexpectedEof` outcome that `load` treats as end of log
arises only when fewer than 12 header bytes remain, so end of input inside
a payload is never surfaced as an I/O error — it flows into the checksum
comparison over the short payload, (3) which signals Corruption when the
checksum mismatches, as when a 14-byte record is truncated to 13 bytes. -/
theorem c6_amended_truncation_behavior :
    (∀ (rs : List KeyValuePair) (tail : ByteSeq),
        (∀ r ∈ rs, r.key.length + r.value.length < U32M) →
        tail.length < 12 →
        (ActionKV.openStore (encodeLog rs ++ tail)).load =
          .ok ⟨encodeLog rs ++ tail, (encodeLog rs ++ tail).length,
            replayIdx rs 0 []⟩) ∧
      (∀ input : ByteSeq,
        process_record input = .error .unexpectedEof → input.length < 12) ∧
      process_record ((encodeRecord [97] [49]).take 13) =
        .error .corruption := by
  refine ⟨?_, fun input h => process_record_eof_short h, by decide⟩
  intro rs tail hb ht
  unfold ActionKV.load ActionKV.openStore
  dsimp only
  rw [List.drop_zero,
    scanLoad_encodeLog rs tail 0 [] _ hb ht (by omega)]
  dsimp only
  rw [Nat.zero_add]

/-- Witness for C6's amended statement: a one-record log with a 2-byte
truncated header loads cleanly with the record indexed, and a 2-byte input
is classified as header end-of-input. -/
theorem c6_amended_truncation_witness :
    ((∀ r ∈ [(⟨[97], [49]⟩ : KeyValuePair)],
        r.key.length + r.value.length < U32M) ∧
      ([171, 205] : ByteSeq).length < 12 ∧
      process_record [7, 7] = .error .unexpectedEof) ∧
      ((ActionKV.openStore (encodeLog [⟨[97], [49]⟩] ++ [171, 205])).load =
          .ok ⟨encodeLog [⟨[97], [49]⟩] ++ [171, 205],
            (encodeLog [⟨[97], [49]⟩] ++ [171, 205]).length,
            replayIdx [⟨[97], [49]⟩] 0 []⟩ ∧
        ([7, 7] : ByteSeq).length < 12) :=
  ⟨⟨by decide, by decide, by decide⟩,
    ⟨c6_amended_truncation_behavior.1 [⟨[97], [49]⟩] [171, 205] (by decide)
      (by decide),
     c6_amended_truncation_behavior.2.1 [7, 7] (by decide)⟩⟩

/-- C9 counterexample: in the spec's concrete scenario the fourth record
(the tombstone of `delete("b")`) is written at offset 42, not 41, and the
final file is 55 bytes long, not 53: the spec's arithmetic drops the key
byte of the `update("a","3")` record (14 bytes, not 13) and of the tombstone
(13 bytes, not 12). -/
theorem c9_counterexample :
    (((((ActionKV.openStore []).insert [97] [49]).insert [98] [50]).update
          [97] [51]).insert_but_ignore_index [98] []).1 = 42 ∧
      ¬(((((ActionKV.openStore []).insert [97] [49]).insert [98] [50]).update
          [97] [51]).insert_but_ignore_index [98] []).1 = 41 ∧
      (((((ActionKV.openStore []).insert [97] [49]).insert [98] [50]).update
          [97] [51]).delete [98]).file.length = 55 ∧
      ¬(((((ActionKV.openStore []).insert [97] [49]).insert [98] [50]).update
          [97] [51]).delete [98]).file.length = 53 := by
  exact ⟨by decide, by decide, by decide, by decide⟩

/-- C9 amended: the concrete scenario with the corrected offsets — records
land at offsets 0, 14, 28 and 42, the file ends up 55 bytes long, and after
reopening and loading, `get("a")` is `"3"`, `get("b")` is the empty value,
and the index has exactly the two entries at offsets 28 and 42. -/
theorem c9_amended_concrete_scenario :
    ((ActionKV.openStore []).insert_but_ignore_index [97] [49]).1 = 0 ∧
      (((ActionKV.openStore []).insert [97] [49]).insert_but_ignore_index
        [98] [50]).1 = 14 ∧
      ((((ActionKV.openStore []).insert [97] [49]).insert [98]
        [50]).insert_but_ignore_index [97] [51]).1 = 28 ∧
      (((((ActionKV.openStore []).insert [97] [49]).insert [98] [50]).update
        [97] [51]).insert_but_ignore_index [98] []).1 = 42 ∧
      (((((ActionKV.openStore []).insert [97] [49]).insert [98] [50]).update
        [97] [51]).delete [98]).file.length = 55 ∧
      (ActionKV.openStore (((((ActionKV.openStore []).insert [97]
          [49]).insert [98] [50]).update [97] [51]).delete [98]).file).load =
        .ok (ActionKV.mk (((((ActionKV.openStore []).insert [97]
          [49]).insert [98] [50]).update [97] [51]).delete [98]).file 55
          [([98], 42), ([97], 28)]) ∧
      (ActionKV.mk (((((ActionKV.openStore []).insert [97] [49]).insert [98]
          [50]).update [97] [51]).delete [98]).file 55
          [([98], 42), ([97], 28)]).getValue [97] = .ok (some [51]) ∧
      (ActionKV.mk (((((ActionKV.openStore []).insert [97] [49]).insert [98]
          [50]).update [97] [51]).delete [98]).file 55
          [([98], 42), ([97], 28)]).getValue [98] = .ok (some []) := by
  exact ⟨by decide, by decide, by decide, by decide, by decide, by decide,
    by decide, by decide⟩

/-! Index rebuild lemmas for the `load` replay (claim C4). -/

theorem idxFind_cons (pk : ByteSeq) (pv : Nat) (rest : List (ByteSeq × Nat))
    (k : ByteSeq) :
    idxFind ((pk, pv) :: rest) k = if pk = k then some pv else idxFind rest k :=
  rfl

theorem filter_ne_cons (pk : ByteSeq) (pv : Nat) (rest : List (ByteSeq × Nat))
    (k0 : ByteSeq) :
    ((pk, pv) :: rest).filter (fun p => p.1 ≠ k0) =
      if pk = k0 then rest.filter (fun p => p.1 ≠ k0)
      else (pk, pv) :: rest.filter (fun p => p.1 ≠ k0) := by
  rw [List.filter_cons]
  by_cases h : pk = k0
  · rw [if_neg (by simp [h]), if_pos h]
  · rw [if_pos (by simp [h]), if_neg h]

theorem idxFind_filter_ne (m : List (ByteSeq × Nat)) {k0 k : ByteSeq}
    (h : k0 ≠ k) :
    idxFind (m.filter (fun p => p.1 ≠ k0)) k = idxFind m k := by
  induction m with
  | nil => rfl
  | cons p rest ih =>
    obtain ⟨pk, pv⟩ := p
    rw [filter_ne_cons]
    by_cases hp : pk = k0
    · rw [if_pos hp, ih, idxFind_cons, if_neg (by rw [hp]; exact h)]
    · rw [if_neg hp, idxFind_cons, idxFind_cons, ih]

theorem idxFind_idxInsert (m : List (ByteSeq × Nat)) (k0 k : ByteSeq)
    (v : Nat) :
    idxFind (idxInsert m k0 v) k = if k0 = k then some v else idxFind m k := by
  by_cases h : k0 = k
  · subst h; simp [idxInsert, idxFind]
  · rw [if_neg h]
    unfold idxInsert
    rw [idxFind_cons, if_neg h, idxFind_filter_ne _ h]

theorem idxFind_append (l1 l2 : List (ByteSeq × Nat)) (k : ByteSeq) :
    idxFind (l1 ++ l2) k = oElse (idxFind l1 k) (idxFind l2 k) := by
  induction l1 with
  | nil => rfl
  | cons p rest ih =>
    obtain ⟨pk, pv⟩ := p
    by_cases h : pk = k <;> simp [idxFind, h, ih, oElse]

theorem lastOffset_cons (r : Nat × KeyValuePair)
    (rs : List (Nat × KeyValuePair)) (k : ByteSeq) :
    lastOffset (r :: rs) k =
      oElse (lastOffset rs k) (if r.2.key = k then some r.1 else none) := by
  unfold lastOffset
  rw [List.reverse_cons, List.map_append, idxFind_append]
  simp [idxFind]

theorem idxFind_foldl (rs : List (Nat × KeyValuePair))
    (m : List (ByteSeq × Nat)) (k : ByteSeq) :
    idxFind (rs.foldl (fun m r => idxInsert m r.2.key r.1) m) k =
      oElse (lastOffset rs k) (idxFind m k) := by
  induction rs generalizing m with
  | nil => rfl
  | cons r rs ih =>
    rw [List.foldl_cons, ih, lastOffset_cons, idxFind_idxInsert]
    cases hl : lastOffset rs k <;> by_cases h : r.2.key = k <;>
      simp [oElse, h]

theorem scanLoad_ok_index {fuel : Nat} :
    ∀ {rest : ByteSeq} {pos : Nat} {idx idx' : List (ByteSeq × Nat)}
      {p' : Nat}, scanLoad fuel rest pos idx = .ok (idx', p') →
      idx' = (scanRecords fuel rest pos).foldl
        (fun m r => idxInsert m r.2.key r.1) idx := by
  induction fuel with
  | zero =>
    intro rest pos idx idx' p' h
    simp only [scanLoad, Except.ok.injEq, Prod.mk.injEq] at h
    rw [← h.1]; rfl
  | succ n ih =>
    intro rest pos idx idx' p' h
    rw [scanLoad] at h
    rw [scanRecords]
    cases hp : process_record rest with
    | error e =>
      rw [hp] at h
      cases e
      · simp only [Except.ok.injEq, Prod.mk.injEq] at h
        rw [← h.1]
        rfl
      · exact absurd h (by simp)
      · exact absurd h (by simp)
    | ok pr =>
      obtain ⟨kv, consumed⟩ := pr
      rw [hp] at h
      dsimp only
      rw [List.foldl_cons]
      exact ih h

theorem idxInsert_keys_nodup {m : List (ByteSeq × Nat)} {k : ByteSeq}
    {v : Nat} (h : (m.map Prod.fst).Nodup) :
    ((idxInsert m k v).map Prod.fst).Nodup := by
  unfold idxInsert
  rw [List.map_cons, List.nodup_cons]
  constructor
  · intro hk
    obtain ⟨p, hp, he⟩ := List.mem_map.mp hk
    have hne : p.1 ≠ k := by simpa using (List.mem_filter.mp hp).2
    exact hne he
  · exact h.sublist ((List.filter_sublist m).map Prod.fst)

theorem foldl_idxInsert_keys_nodup (rs : List (Nat × KeyValuePair)) :
    ∀ (m : List (ByteSeq × Nat)), (m.map Prod.fst).Nodup →
      ((rs.foldl (fun m r => idxInsert m r.2.key r.1) m).map Prod.fst).Nodup := by
  induction rs with
  | nil => intro m h; exact h
  | cons r rs ih => intro m h; exact ih _ (idxInsert_keys_nodup h)

/-- C4 counterexample: open an existing one-record file (key `"a"`) and
insert a key `"b"` before calling `load`.  The insert leaves the handle at
end of file, so the subsequent `load` replays nothing — it neither clears
the index nor scans from offset 0 — and it succeeds with an index that has
no entry at all for the on-disk key `"a"`, whose record the log does
contain (and whose most recent record is at offset 0). -/
theorem c4_counterexample :
    ((ActionKV.openStore (encodeRecord [97] [49])).insert [98] [50]).load =
        .ok (ActionKV.mk (encodeRecord [97] [49] ++ encodeRecord [98] [50])
          28 [([98], 0)]) ∧
      idxFind [([98], 0)] [97] = none ∧
      lastOffset
        (logRecords (encodeRecord [97] [49] ++ encodeRecord [98] [50]))
        [97] = some 0 := by
  exact ⟨by decide, by decide, by decide⟩

/-- C4 amended: when `load` is called on a freshly opened store (handle at
offset 0, empty index, as the CLI does), it replays the log from offset 0 in
ascending offset order, setting `mapping[record.key] = offset` for each
record and unconditionally overwriting prior entries, so the resulting index
has exactly one entry per key appearing in the log, pointing at that key's
most recent record.  (The source does not clear the index and scans from the
current handle position, so this description is only accurate for a freshly
opened store.) -/
theorem c4_amended_load_replays_log (f : ByteSeq) (t : ActionKV)
    (h : (ActionKV.openStore f).load = .ok t) :
    (∀ k, idxFind t.index k = lastOffset (logRecords f) k) ∧
      (t.index.map Prod.fst).Nodup := by
  obtain ⟨-, -, hs⟩ := load_ok_parts h
  simp only [ActionKV.openStore, List.drop_zero] at hs
  have hidx := scanLoad_ok_index hs
  constructor
  · intro k
    rw [hidx, idxFind_foldl]
    unfold logRecords
    cases hx : lastOffset (scanRecords (f.length + 1) f 0) k <;>
      simp [oElse, idxFind, hx]
  · rw [hidx]
    exact foldl_idxInsert_keys_nodup _ _ (by simp)

/-- Witness for C4's amended statement: a log with two records for the same
key; the rebuilt index maps the key to the most recent offset, 14. -/
theorem c4_amended_witness :
    ((ActionKV.openStore (encodeRecord [97] [49] ++ encodeRecord [97]
          [50])).load =
        .ok (ActionKV.mk (encodeRecord [97] [49] ++ encodeRecord [97] [50])
          28 [([97], 14)])) ∧
      idxFind (ActionKV.mk (encodeRecord [97] [49] ++ encodeRecord [97]
          [50]) 28 [([97], 14)]).index [97] =
        lastOffset (logRecords (encodeRecord [97] [49] ++ encodeRecord [97]
          [50])) [97] :=
  ⟨by decide,
    (c4_amended_load_replays_log _ _ (by decide)).1 [97]⟩

/-! CRC-32 single-bit-flip detection (claim C5).  The shift-register step is
injective on 32-bit states, so two payloads of equal length differing in one
byte keep distinct CRC states forever after. -/

theorem testBit31_ge {c : Nat} (hc : c < 4294967296)
    (h : c.testBit 31 = true) : 2 ^ 31 ≤ c := by
  rw [Nat.testBit_to_div_mod] at h
  simp only [decide_eq_true_eq] at h
  omega

theorem testBit31_lt {c : Nat} (hc : c < 4294967296)
    (h : c.testBit 31 = false) : c < 2 ^ 31 := by
  rw [Nat.testBit_to_div_mod] at h
  simp only [decide_eq_false_iff_not] at h
  omega

theorem testBit0_eq (n : Nat) : n.testBit 0 = decide (n % 2 = 1) := by
  rw [Nat.testBit_to_div_mod]
  norm_num

theorem xor_poly_parity {a : Nat} (ha : a % 2 = 0) :
    (a ^^^ crcPoly) % 2 = 1 := by
  have hx : (a ^^^ crcPoly).testBit 0 =
      ((a.testBit 0).xor (crcPoly.testBit 0)) := Nat.testBit_xor a crcPoly 0
  rw [testBit0_eq, testBit0_eq, testBit0_eq] at hx
  have h1 : decide (a % 2 = 1) = false := by simp [ha]
  have h2 : decide (crcPoly % 2 = 1) = true := by norm_num [crcPoly]
  rw [h1, h2] at hx
  simpa using hx

theorem crcStep_inj {x y : Nat} (hx : x < U32M) (hy : y < U32M)
    (h : crcStep x = crcStep y) : x = y := by
  have hx32 : x < 4294967296 := hx
  have hy32 : y < 4294967296 := hy
  unfold crcStep at h
  unfold U32M at h
  by_cases bx : x.testBit 31 = true <;> by_cases b2 : y.testBit 31 = true
  · rw [if_pos bx, if_pos b2] at h
    have h' := Nat.xor_left_inj.mp h
    have g1 := testBit31_ge hx32 bx
    have g2 := testBit31_ge hy32 b2
    omega
  · rw [if_pos bx, if_neg b2] at h
    have hpar : ((2 * x) % 4294967296 ^^^ crcPoly) % 2 = 1 :=
      xor_poly_parity (by omega)
    rw [h] at hpar
    omega
  · rw [if_neg bx, if_pos b2] at h
    have hpar : ((2 * y) % 4294967296 ^^^ crcPoly) % 2 = 1 :=
      xor_poly_parity (by omega)
    rw [← h] at hpar
    omega
  · rw [if_neg bx, if_neg b2] at h
    have g1 := testBit31_lt hx32 (by simpa using bx)
    have g2 := testBit31_lt hy32 (by simpa using b2)
    omega

theorem shiftLeft24_lt {b : Nat} (hb : b < 256) : b <<< 24 < U32M := by
  rw [Nat.shiftLeft_eq]
  unfold U32M
  omega

theorem xor_shiftLeft24_lt {c b : Nat} (hc : c < U32M) (hb : b < 256) :
    c ^^^ (b <<< 24) < U32M := by
  rw [U32M_eq]
  exact Nat.xor_lt_two_pow (U32M_eq ▸ hc) (U32M_eq ▸ shiftLeft24_lt hb)

theorem crcByte_inj {x y b : Nat} (hx : x < U32M) (hy : y < U32M)
    (hb : b < 256) (h : crcByte x b = crcByte y b) : x = y := by
  unfold crcByte at h
  have e1 := crcStep_inj (crcStep_lt _) (crcStep_lt _) h
  have e2 := crcStep_inj (crcStep_lt _) (crcStep_lt _) e1
  have e3 := crcStep_inj (crcStep_lt _) (crcStep_lt _) e2
  have e4 := crcStep_inj (crcStep_lt _) (crcStep_lt _) e3
  have e5 := crcStep_inj (crcStep_lt _) (crcStep_lt _) e4
  have e6 := crcStep_inj (crcStep_lt _) (crcStep_lt _) e5
  have e7 := crcStep_inj (crcStep_lt _) (crcStep_lt _) e6
  have e8 := crcStep_inj (xor_shiftLeft24_lt hx hb) (xor_shiftLeft24_lt hy hb)
    e7
  exact Nat.xor_left_inj.mp e8

theorem crcByte_ne {c b1 b2 : Nat} (hc : c < U32M) (h1 : b1 < 256)
    (h2 : b2 < 256) (hne : b1 ≠ b2) : crcByte c b1 ≠ crcByte c b2 := by
  intro h
  unfold crcByte at h
  have e1 := crcStep_inj (crcStep_lt _) (crcStep_lt _) h
  have e2 := crcStep_inj (crcStep_lt _) (crcStep_lt _) e1
  have e3 := crcStep_inj (crcStep_lt _) (crcStep_lt _) e2
  have e4 := crcStep_inj (crcStep_lt _) (crcStep_lt _) e3
  have e5 := crcStep_inj (crcStep_lt _) (crcStep_lt _) e4
  have e6 := crcStep_inj (crcStep_lt _) (crcStep_lt _) e5
  have e7 := crcStep_inj (crcStep_lt _) (crcStep_lt _) e6
  have e8 := crcStep_inj (xor_shiftLeft24_lt hc h1) (xor_shiftLeft24_lt hc h2)
    e7
  have e9 := Nat.xor_right_inj.mp e8
  rw [Nat.shiftLeft_eq, Nat.shiftLeft_eq] at e9
  exact hne (Nat.eq_of_mul_eq_mul_right (by norm_num) e9)

theorem crcFold_ne (l : ByteSeq) (hl : ∀ x ∈ l, x < 256) :
    ∀ {c d : Nat}, c < U32M → d < U32M → c ≠ d →
      l.foldl crcByte c ≠ l.foldl crcByte d := by
  induction l with
  | nil => intro c d _ _ hne; exact hne
  | cons b t ih =>
    intro c d hc hd hne
    rw [List.foldl_cons, List.foldl_cons]
    have hb : b < 256 := hl b (by simp)
    refine ih (fun x hx => hl x (by simp [hx])) (crcByte_lt _ _)
      (crcByte_lt _ _) ?_
    intro he
    exact hne (crcByte_inj hc hd hb he)

/-- Two equal-length payloads differing in exactly one byte have different
CRC-32/CKSUM checksums. -/
theorem crc32_flip_payload_ne (l1 l2 : ByteSeq) {b1 b2 : Nat}
    (h1 : b1 < 256) (h2 : b2 < 256) (hl2 : ∀ x ∈ l2, x < 256)
    (hne : b1 ≠ b2) :
    crc32 (l1 ++ b1 :: l2) ≠ crc32 (l1 ++ b2 :: l2) := by
  unfold crc32
  intro h
  have h' := Nat.xor_left_inj.mp h
  rw [List.foldl_append, List.foldl_append, List.foldl_cons,
    List.foldl_cons] at h'
  exact crcFold_ne l2 hl2 (crcByte_lt _ _) (crcByte_lt _ _)
    (crcByte_ne (crcFold_lt l1 0 (by norm_num [U32M])) h1 h2 hne) h'

theorem getD_append_add (l1 l2 : ByteSeq) (i : Nat) :
    (l1 ++ l2).getD (l1.length + i) 0 = l2.getD i 0 := by
  induction l1 with
  | nil => simp
  | cons a t ih =>
    simp only [List.cons_append, List.length_cons]
    rw [show t.length + 1 + i = (t.length + i) + 1 from by omega]
    exact ih

theorem set_append_add (l1 l2 : ByteSeq) (i v : Nat) :
    (l1 ++ l2).set (l1.length + i) v = l1 ++ l2.set i v := by
  induction l1 with
  | nil => simp
  | cons a t ih =>
    simp only [List.cons_append, List.length_cons]
    rw [show t.length + 1 + i = (t.length + i) + 1 from by omega]
    exact congrArg (List.cons a) ih

theorem flipBit_append (l1 l2 : ByteSeq) (i j : Nat) :
    flipBit (l1 ++ l2) (l1.length + i) j = l1 ++ flipBit l2 i j := by
  unfold flipBit
  rw [getD_append_add, set_append_add]

/-- Decoding a record whose header is intact but whose payload bytes have
been replaced by same-length bytes with a different checksum signals
Corruption. -/
theorem process_record_bad_payload (key value payload' rest : ByteSeq)
    (hlen : payload'.length = key.length + value.length)
    (hbound : key.length + value.length < U32M)
    (hcrc : crc32 payload' ≠ crc32 (key ++ value)) :
    process_record (u32LE (crc32 (key ++ value)) ++ (u32LE key.length ++
      (u32LE value.length ++ (payload' ++ rest)))) = .error .corruption := by
  have hk : key.length % U32M = key.length := Nat.mod_eq_of_lt (by omega)
  have hv : value.length % U32M = value.length := Nat.mod_eq_of_lt (by omega)
  have hc : crc32 (key ++ value) % U32M = crc32 (key ++ value) :=
    Nat.mod_eq_of_lt (crc32_lt _)
  rw [process_record_parts]
  simp only [hk, hv, hc, Nat.mod_eq_of_lt hbound]
  rw [List.take_left' hlen, if_neg hcrc]

/-- C5: flipping any single bit inside a record's key or value bytes makes a
subsequent decode of that record (by `get`/`get_at` or by the `load` scan,
both of which go through `process_record`) signal Corruption; the tampered
bytes are never returned as data.  Byte `12 + i` of the encoded record is
payload byte `i`, i.e. a key byte when `i < key.length` and a value byte
otherwise; `rest` is whatever the log contains after this record. -/
theorem c5_bit_flip_detected (key value rest : ByteSeq) (i j : Nat)
    (hbytes : ∀ b ∈ key ++ value, b < 256)
    (hbound : key.length + value.length < U32M)
    (hi : i < key.length + value.length) (hj : j < 8) :
    process_record (flipBit (encodeRecord key value) (12 + i) j ++ rest) =
      .error .corruption := by
  have hi' : i < (key ++ value).length := by rw [List.length_append]; omega
  have henc : encodeRecord key value =
      (u32LE (crc32 (key ++ value)) ++ (u32LE key.length ++
        u32LE value.length)) ++ (key ++ value) := by
    unfold encodeRecord
    simp [List.append_assoc]
  have hHlen : (u32LE (crc32 (key ++ value)) ++ (u32LE key.length ++
      u32LE value.length)).length = 12 := by simp [u32LE]
  rw [henc, show (12 : Nat) + i = (u32LE (crc32 (key ++ value)) ++
      (u32LE key.length ++ u32LE value.length)).length + i from by
        rw [hHlen], flipBit_append]
  have hb : (key ++ value)[i] < 256 := hbytes _ (List.getElem_mem hi')
  have hshift : (1 <<< j) < 256 := by
    rw [Nat.shiftLeft_eq]
    have : 2 ^ j ≤ 2 ^ 7 := Nat.pow_le_pow_right (by norm_num) (by omega)
    omega
  have hflipb : (key ++ value)[i] ^^^ (1 <<< j) < 256 := by
    have h8 : (256 : Nat) = 2 ^ 8 := by norm_num
    rw [h8] at hb hshift ⊢
    exact Nat.xor_lt_two_pow hb hshift
  have hne : (key ++ value)[i] ^^^ (1 <<< j) ≠ (key ++ value)[i] := by
    intro he
    have h0 : (key ++ value)[i] ^^^ (1 <<< j) = (key ++ value)[i] ^^^ 0 := by
      rw [Nat.xor_zero]; exact he
    have h1 := Nat.xor_right_inj.mp h0
    rw [Nat.shiftLeft_eq, Nat.one_mul] at h1
    have h2 := Nat.two_pow_pos j
    omega
  have hdec : key ++ value = (key ++ value).take i ++
      (key ++ value)[i] :: (key ++ value).drop (i + 1) := by
    conv_lhs => rw [← List.take_append_drop i (key ++ value)]
    rw [List.drop_eq_getElem_cons hi']
  have hflipdec : flipBit (key ++ value) i j = (key ++ value).take i ++
      ((key ++ value)[i] ^^^ (1 <<< j)) :: (key ++ value).drop (i + 1) := by
    unfold flipBit
    rw [List.getD_eq_getElem _ _ hi', List.set_eq_take_append_cons_drop,
      if_pos hi']
  have hdropb : ∀ x ∈ (key ++ value).drop (i + 1), x < 256 :=
    fun x hx => hbytes x (List.drop_subset _ _ hx)
  have hcrcne : crc32 (flipBit (key ++ value) i j) ≠ crc32 (key ++ value) := by
    rw [hflipdec]
    conv_rhs => rw [hdec]
    exact crc32_flip_payload_ne _ _ hflipb hb hdropb hne
  have hflen : (flipBit (key ++ value) i j).length =
      key.length + value.length := by
    unfold flipBit
    rw [List.length_set, List.length_append]
  rw [List.append_assoc]
  exact process_record_bad_payload key value _ rest hflen hbound hcrcne

/-- Witness for C5: flip the lowest bit of the key byte of a concrete
record; decoding reports Corruption. -/
theorem c5_witness :
    ((∀ b ∈ ([97] : ByteSeq) ++ [49], b < 256) ∧
        ([97] : ByteSeq).length + ([49] : ByteSeq).length < U32M ∧
        0 < ([97] : ByteSeq).length + ([49] : ByteSeq).length ∧ 0 < 8) ∧
      process_record (flipBit (encodeRecord [97] [49]) (12 + 0) 0 ++ []) =
        .error .corruption :=
  ⟨⟨by decide, by decide, by decide, by decide⟩,
    c5_bit_flip_detected [97] [49] [] 0 0 (by decide) (by decide) (by decide)
      (by decide)⟩

/-! The misrecorded-offset scenario (claims C1, C2, C3). -/

theorem u32LE_length (n : Nat) : (u32LE n).length = 4 := rfl

theorem drop_append_ge (X Y : ByteSeq) {n : Nat} (h : X.length ≤ n) :
    (X ++ Y).drop n = Y.drop (n - X.length) := by
  rw [List.drop_append_eq_append_drop, List.drop_eq_nil_of_le h,
    List.nil_append]

theorem fileBig_length : fileBig.length = 9027 := by
  unfold fileBig bigValue
  rw [List.length_append, encodeRecord_length, encodeRecord_length]
  simp only [List.length_cons, List.length_nil, List.length_replicate]

theorem sBig_construction :
    ((ActionKV.openStore []).insert [97] [49]).insert [98] bigValue = sBig := by
  unfold ActionKV.openStore ActionKV.insert ActionKV.insert_but_ignore_index
    sBig
  dsimp only
  simp only [ActionKV.mk.injEq]
  refine ⟨by unfold fileBig; simp, ?_, ?_⟩
  · rw [show (([] : ByteSeq) ++ encodeRecord [97] [49]) ++
        encodeRecord [98] bigValue = fileBig from by unfold fileBig; simp]
    exact fileBig_length
  · rw [show (([] : ByteSeq) ++ encodeRecord [97] [49]).length = 14 from by
      simp [encodeRecord_length]]
    decide

theorem sBig_get : sBig.get [97] = .ok (some [49], sAfterGet) := by
  have hpr : process_record (fileBig.drop 0) = .ok (⟨[97], [49]⟩, 14) := by
    rw [List.drop_zero]
    unfold fileBig
    rw [process_record_encode [97] [49] _ (by norm_num [U32M])]
    norm_num
  have hmin : min (0 + bufReaderCap) fileBig.length = 8192 := by
    rw [fileBig_length]
    norm_num [bufReaderCap]
  unfold ActionKV.get ActionKV.get_at sBig sAfterGet
  dsimp only
  rw [show idxFind [([98], 14), ([97], 0)] [97] = some 0 from by decide]
  dsimp only
  rw [hpr]
  dsimp only
  rw [hmin]

theorem sBug_construction : sAfterGet.insert [99] [122] = sBug := by
  unfold ActionKV.insert ActionKV.insert_but_ignore_index sAfterGet sBug
  dsimp only
  simp only [ActionKV.mk.injEq]
  refine ⟨by trivial, ?_, by decide⟩
  rw [List.length_append, fileBig_length, encodeRecord_length]
  norm_num

theorem reachable_sAfterGet : Reachable sAfterGet := by
  have h0 : Reachable (ActionKV.openStore []) := .openStore []
  have h1 := Reachable.insert [97] [49] h0
  have h2 := Reachable.insert [98] bigValue h1
  rw [sBig_construction] at h2
  exact Reachable.get h2 sBig_get

theorem sBug_drop :
    (fileBig ++ encodeRecord [99] [122]).drop 8192 =
      List.replicate 835 0 ++ encodeRecord [99] [122] := by
  have h1 : (fileBig ++ encodeRecord [99] [122]).drop 8192 =
      (encodeRecord [98] bigValue ++ encodeRecord [99] [122]).drop 8178 := by
    unfold fileBig
    rw [List.append_assoc, drop_append_ge _ _ (by simp [encodeRecord_length]),
      encodeRecord_length]
    norm_num
  have h2 : encodeRecord [98] bigValue ++ encodeRecord [99] [122] =
      u32LE (crc32 ([98] ++ bigValue)) ++ (u32LE ([98] : ByteSeq).length ++
        (u32LE bigValue.length ++ ([98] ++ (bigValue ++
          encodeRecord [99] [122])))) := by
    unfold encodeRecord
    simp [List.append_assoc]
  have h3 : (u32LE (crc32 ([98] ++ bigValue)) ++
      (u32LE ([98] : ByteSeq).length ++ (u32LE bigValue.length ++
        ([98] ++ (bigValue ++ encodeRecord [99] [122]))))).drop 8178 =
      (bigValue ++ encodeRecord [99] [122]).drop 8165 := by
    rw [drop_append_ge _ _ (by rw [u32LE_length]; norm_num), u32LE_length]
    norm_num
    rw [drop_append_ge _ _ (by rw [u32LE_length]; norm_num), u32LE_length]
    norm_num
    rw [drop_append_ge _ _ (by rw [u32LE_length]; norm_num), u32LE_length]
    norm_num
  have h4 : (bigValue ++ encodeRecord [99] [122]).drop 8165 =
      List.replicate 835 0 ++ encodeRecord [99] [122] := by
    rw [List.drop_append_eq_append_drop]
    unfold bigValue
    rw [List.drop_replicate, List.length_replicate]
    norm_num
  rw [h1, h2, h3, h4]

theorem sBug_get_c : sBug.get [99] = .error .corruption := by
  unfold ActionKV.get ActionKV.get_at sBug
  dsimp only
  rw [show idxFind [([99], 8192), ([98], 14), ([97], 0)] [99] = some 8192 from
    by decide]
  dsimp only
  rw [show (fileBig ++ encodeRecord [99] [122]).drop 8192 =
    List.replicate 835 0 ++ encodeRecord [99] [122] from sBug_drop]
  rw [show process_record (List.replicate 835 0 ++ encodeRecord [99] [122]) =
    .error .corruption from by decide]

/-- C1 refuted on the code (code bug): `sAfterGet` is a store state reachable
through the public API — open an empty file, `insert("a","1")`,
`insert("b", 9000 zero bytes)`, then `get("a")`, which leaves the file handle
at offset 8192, inside the second record's payload.  From this state,
`insert("c","z")` records offset 8192 in the index (the handle position
before the seek to end of file), so the immediately following `get("c")`
decodes mid-payload garbage and dies with the corruption panic instead of
returning `Some "z"`. -/
theorem c1_round_trip_fails_after_partial_read :
    Reachable sAfterGet ∧
      (sAfterGet.insert [99] [122]).getValue [99] = .error .corruption := by
  refine ⟨reachable_sAfterGet, ?_⟩
  rw [sBug_construction]
  unfold ActionKV.getValue
  rw [sBug_get_c]
  rfl

/-- C2 refuted on the code (code bug): in the reachable state `sAfterGet`
the file is 9027 bytes long, so the next record is written at offset 9027 —
but `insert_but_ignore_index` returns 8192, the handle position *before* its
seek to end of file.  The returned offset is therefore not the start offset
of the newly written record, and it does depend on where the handle was left
by a prior `get`. -/
theorem c2_returned_offset_is_stale_position :
    Reachable sAfterGet ∧
      (sAfterGet.insert_but_ignore_index [99] [122]).1 = 8192 ∧
      sAfterGet.file.length = 9027 :=
  ⟨reachable_sAfterGet, rfl, fileBig_length⟩

/-- C3 refuted on the code (code bug): after the insert from `sAfterGet`,
the reachable store `sBug` has index entry `"c" ↦ 8192`, but decoding the
bytes at offset 8192 of its log does not yield a record with key `"c"` — it
fails outright with a checksum mismatch, because 8192 points into the middle
of another record's payload.  The index invariant is violated by a
successful mutation. -/
theorem c3_index_entry_points_at_garbage :
    Reachable sBug ∧
      idxFind sBug.index [99] = some 8192 ∧
      process_record (sBug.file.drop 8192) = .error .corruption := by
  refine ⟨?_, by decide, ?_⟩
  · have h := Reachable.insert [99] [122] reachable_sAfterGet
    rw [sBug_construction] at h
    exact h
  · show process_record ((fileBig ++ encodeRecord [99] [122]).drop 8192) = _
    rw [sBug_drop]
    decide
